import Mathlib

/-!
Verification development for the `mdbook-numeq` preprocessor
(`src/lib.rs`).  The source is shallowly embedded: chapter content is a
string scanned left to right exactly as the two regexes of the source do,
the label hash map is an association list (the source only inserts fresh
keys, so lookup semantics agree), and the mutable counter / chapter-number
vector threaded through the traversal becomes explicit state passing.
Logging (`warn!`) is modelled by returning the list of offending labels.
Panics (`unwrap` on `diff_paths`, unparsable section-number components)
are modelled by `Option`, `none` standing for a panic.
-/

namespace NumEq

/-- Character-level model of the `regex` crate's `\s` (Unicode white space),
used by the `{{eqref:\s*...}}` pattern. -/
def isWs (c : Char) : Bool :=
  c = ' ' || c = '\t' || c = '\n' || c = '\x0b' || c = '\x0c' || c = '\r' ||
  c = '\x85' || c = '\xa0' || c = '\u1680' ||
  ('\u2000' ≤ c && c ≤ '\u200a') || c = '\u2028' || c = '\u2029' ||
  c = '\u202f' || c = '\u205f' || c = '\u3000'

/-- Strip an expected literal sequence from the front of a character list,
returning the remainder on success (regex literal matching). -/
def stripLit : List Char → List Char → Option (List Char)
  | [], cs => some cs
  | _ :: _, [] => none
  | p :: ps, c :: cs => if c = p then stripLit ps cs else none

/-- The literal `{{numeq}}` token of the equation regex
`\{\{numeq\}\}(\{(?P<label>.*?)\})?`. -/
def numeqTokChars : List Char := ['{', '{', 'n', 'u', 'm', 'e', 'q', '}', '}']

/-- The literal `{{eqref:` head of the reference regex
`\{\{eqref:\s*(?P<label>.*?)\}\}`. -/
def eqrefTokChars : List Char := ['{', '{', 'e', 'q', 'r', 'e', 'f', ':']

/-- Lazy `.*?` capture terminated by a single `}`: at every position the
engine first tries to close the group, otherwise consumes one
non-newline character (`.` does not match `\n`). -/
def lazyToBrace : List Char → Option (List Char × List Char)
  | [] => none
  | c :: rest =>
    if c = '}' then some ([], rest)
    else if c = '\n' then none
    else (lazyToBrace rest).map (fun p => (c :: p.1, p.2))

/-- Lazy `.*?` capture terminated by `}}`: at every position the engine
first tries to match the closing `}}`, otherwise consumes one
non-newline character. -/
def lazyToBraces : List Char → Option (List Char × List Char)
  | [] => none
  | c :: rest =>
    if c = '}' ∧ rest.head? = some '}' then some ([], rest.tail)
    else if c = '\n' then none
    else (lazyToBraces rest).map (fun p => (c :: p.1, p.2))

/-- Greedy `\s*` followed by the lazy label capture and `}}`, with the
backtracking preference order of the regex engine: consume as much white
space as possible first, fall back to shorter runs on failure. -/
def wsThenLabel : List Char → Option (List Char × List Char)
  | [] => lazyToBraces []
  | c :: rest =>
    if isWs c then
      match wsThenLabel rest with
      | some r => some r
      | none => lazyToBraces (c :: rest)
    else lazyToBraces (c :: rest)

/-- Try to match `\{\{numeq\}\}(\{(?P<label>.*?)\})?` at the head of `cs`;
returns the optional captured label and the remainder after the match.
If the optional brace group cannot be completed the match is just the
bare `{{numeq}}` token. -/
def matchNumeq (cs : List Char) : Option (Option (List Char) × List Char) :=
  (stripLit numeqTokChars cs).map (fun rest =>
    if rest.head? = some '{' then
      match lazyToBrace rest.tail with
      | some (lbl, rest3) => (some lbl, rest3)
      | none => (none, rest)
    else (none, rest))

/-- Try to match `\{\{eqref:\s*(?P<label>.*?)\}\}` at the head of `cs`;
returns the captured label and the remainder after the match. -/
def matchEqref (cs : List Char) : Option (List Char × List Char) :=
  (stripLit eqrefTokChars cs).bind wsThenLabel

/-- The `LabelInfo` structure of the source: the rendered number of a
labeled equation and the path of the chapter defining it.  Paths are
modelled as their lists of components. -/
structure LabelInfo where
  num : String
  path : List String
deriving Repr, DecidableEq

/-- The label hash map of the source.  Keys are only ever inserted when
absent, so an association list with `List.lookup` is an exact model. -/
abbrev RefsMap := List (String × LabelInfo)

/-- Rendered fragment `\htmlId{label}{} ` produced for a labeled equation
(trailing space included, it separates the anchor from the tag). -/
def anchorFrag (lbl : String) : String :=
  "\\htmlId\x7b" ++ lbl ++ "\x7d\x7b\x7d "

/-- Rendered fragment `\tag{prefixnumber}` carrying the visible number. -/
def tagFrag (pfx : String) (n : Nat) : String :=
  "\\tag\x7b" ++ pfx ++ Nat.repr n ++ "\x7d"

/-- Fuel-indexed scanner of `find_and_replace_eqs`: walks the content left
to right, replacing every regex match and threading the hash map and the
counter.  The fourth result component records the labels for which the
source would `warn!` about a duplicate.  The fuel is initialised with the
length of the input, which by the length lemmas below never runs out. -/
def findAndReplaceEqsAux (pfx : String) (path : List String) :
    Nat → List Char → RefsMap → Nat → List Char × RefsMap × Nat × List String
  | 0, cs, refs, ctr => (cs, refs, ctr, [])
  | fuel + 1, cs, refs, ctr =>
    match matchNumeq cs with
    | some (some lbl, rest) =>
      let lblS := String.mk lbl
      if (List.lookup lblS refs).isSome then
        let r := findAndReplaceEqsAux pfx path fuel rest refs (ctr + 1)
        ((anchorFrag lblS).data ++ (tagFrag pfx (ctr + 1)).data ++ r.1,
          r.2.1, r.2.2.1, lblS :: r.2.2.2)
      else
        let refs2 := (lblS, ⟨pfx ++ Nat.repr (ctr + 1), path⟩) :: refs
        let r := findAndReplaceEqsAux pfx path fuel rest refs2 (ctr + 1)
        ((anchorFrag lblS).data ++ (tagFrag pfx (ctr + 1)).data ++ r.1,
          r.2.1, r.2.2.1, r.2.2.2)
    | some (none, rest) =>
      let r := findAndReplaceEqsAux pfx path fuel rest refs (ctr + 1)
      ((tagFrag pfx (ctr + 1)).data ++ r.1, r.2.1, r.2.2.1, r.2.2.2)
    | none =>
      match cs with
      | [] => ([], refs, ctr, [])
      | c :: cs2 =>
        let r := findAndReplaceEqsAux pfx path fuel cs2 refs ctr
        (c :: r.1, r.2.1, r.2.2.1, r.2.2.2)

/-- Model of `find_and_replace_eqs`: replaces every
`{{numeq}}{label}` / `{{numeq}}` match by the anchor/tag markup, updating
the label map (first writer wins) and the running counter.  Returns the
rewritten content, the map, the counter, and the duplicate-label
warnings. -/
def find_and_replace_eqs (s : String) (pfx : String) (path : List String)
    (refs : RefsMap) (ctr : Nat) : String × RefsMap × Nat × List String :=
  let r := findAndReplaceEqsAux pfx path s.data.length s.data refs ctr
  (String.mk r.1, r.2)

/-- Faithful model of the `pathdiff::diff_paths` loop for two relative
paths given as component lists (`true` = no component emitted yet, the
guard of the skip-equal arm).  `none` models the `None` return hit when
the base contains a `..` component past the common prefix. -/
def diffLoop : List String → List String → Bool → Option (List String)
  | [], [], _ => some []
  | a :: ra, [], _ => some (a :: ra)
  | [], _ :: rb, _ => (diffLoop [] rb false).map (fun t => ".." :: t)
  | a :: ra, b :: rb, compsEmpty =>
    if compsEmpty && a = b then diffLoop ra rb compsEmpty
    else if b = "." then (diffLoop ra rb false).map (fun t => a :: t)
    else if b = ".." then none
    else some (".." :: (rb.map (fun _ => "..") ++ a :: ra))

/-- Model of `compute_rel_path`: empty string for identical paths,
otherwise `diff_paths(path_to_ref, parent_dir(chap_path))` rendered with
`/` separators.  `none` models the `unwrap` panic of the source. -/
def compute_rel_path (chap_path path_to_ref : List String) : Option String :=
  if chap_path = path_to_ref then some ""
  else (diffLoop path_to_ref chap_path.dropLast true).map
    (fun comps => String.intercalate "/" comps)

/-- Fuel-indexed scanner of `find_and_replace_refs`: replaces every
`{{eqref: label}}` match by a link when the label is known and by the
broken marker `**[??]**` otherwise.  The second component records the
labels for which the source would `warn!` about an unknown reference;
`none` models the panic of `diff_paths(..).unwrap()`. -/
def findAndReplaceRefsAux (chapPath : List String) (refs : RefsMap) :
    Nat → List Char → Option (List Char × List String)
  | 0, cs => some (cs, [])
  | fuel + 1, cs =>
    match matchEqref cs with
    | some (lbl, rest) =>
      let lblS := String.mk lbl
      match List.lookup lblS refs with
      | some info =>
        match compute_rel_path chapPath info.path with
        | none => none
        | some relPath =>
          (findAndReplaceRefsAux chapPath refs fuel rest).map
            (fun r => (("[(" ++ info.num ++ ")](" ++ relPath ++ "#" ++ lblS ++ ")").data ++ r.1, r.2))
      | none =>
        (findAndReplaceRefsAux chapPath refs fuel rest).map
          (fun r => ("**[??]**".data ++ r.1, lblS :: r.2))
    | none =>
      match cs with
      | [] => some ([], [])
      | c :: cs2 =>
        (findAndReplaceRefsAux chapPath refs fuel cs2).map
          (fun r => (c :: r.1, r.2))

/-- Model of `find_and_replace_refs`: rewrites every reference
placeholder of the content, returning the content plus the
unknown-label warnings (`none` = panic inside `compute_rel_path`). -/
def find_and_replace_refs (s : String) (chap_path : List String)
    (refs : RefsMap) : Option (String × List String) :=
  (findAndReplaceRefsAux chap_path refs s.data.length s.data).map
    (fun r => (String.mk r.1, r.2))

/-- Drop all trailing `.` characters (Rust `trim_end_matches('.')`). -/
def dropTrailingDots (cs : List Char) : List Char :=
  (cs.reverse.dropWhile (fun c => c = '.')).reverse

/-- Split a character list on a separator character (Rust `split('.')`);
splitting the empty list yields one empty piece, as in Rust. -/
def splitOnDot : List Char → List (List Char)
  | [] => [[]]
  | c :: rest =>
    match splitOnDot rest with
    | g :: gs => if c = '.' then [] :: g :: gs else (c :: g) :: gs
    | [] => [[]]

/-- Decimal digit value of a character, `none` for a non-digit. -/
def digitVal (c : Char) : Option Nat :=
  if '0' ≤ c ∧ c ≤ '9' then some (c.toNat - '0'.toNat) else none

/-- Model of `str::parse::<usize>` restricted to plain digit strings
(section-number components are rendered from `u32`, so signs never
occur); `none` models the parse error, hence the `unwrap` panic. -/
def parseNatChars (cs : List Char) : Option Nat :=
  if cs = [] then none
  else cs.foldl (fun acc c => acc.bind fun n => (digitVal c).map fun d => n * 10 + d) (some 0)

/-- Parse a section-number string into its numeric components:
`prefix.trim_end_matches('.').split('.').map(parse)` of the source. -/
def parseSecVec (s : String) : Option (List Nat) :=
  (splitOnDot (dropTrailingDots s.data)).mapM parseNatChars

/-- Render a chapter-number vector as the printed prefix:
`ccn.iter().fold(String::new(), |acc, x| acc + &x.to_string() + ".")`. -/
def renderCcn (ccn : List Nat) : String :=
  ccn.foldl (fun acc x => acc ++ Nat.repr x ++ ".") ""

/-- The three recognised configuration options of the preprocessor. -/
structure Config where
  withPfx : Bool
  pfxDepth : Nat
  global : Bool
deriving Repr, DecidableEq

/-- The counter/chapter-number/prefix update performed by `run` at the
start of every visited non-draft chapter (lines 95–124 of `lib.rs`),
factored out of the traversal closure.  Input `pfx0` is the raw prefix
string (rendered section number, or empty), `ctr` and `ccn` the threaded
state; `none` models the `parse().unwrap()` panic. -/
def resetCtrAndPfx (cfg : Config) (pfx0 : String) (ctr : Nat) (ccn : List Nat) :
    Option (String × Nat × List Nat) :=
  let ctr1 := if !cfg.global && cfg.pfxDepth == 0 then 0 else ctr
  if 0 < cfg.pfxDepth then
    if pfx0 = "" then some (pfx0, 0, ccn)
    else
      match parseSecVec pfx0 with
      | none => none
      | some pv =>
        let pv2 := if pv.length < cfg.pfxDepth
          then pv ++ List.replicate (cfg.pfxDepth - pv.length) 0 else pv
        if ccn ≠ pv2.take cfg.pfxDepth then
          let ccn2 := pv2.take cfg.pfxDepth
          some (renderCcn ccn2, 0, ccn2)
        else some (renderCcn ccn, ctr1, ccn)
  else some (pfx0, ctr1, ccn)

/-- Rendering of an mdBook `SectionNumber` (a vector of numbers):
each component followed by a dot, the empty vector printed as `0`.
Modelled from the host crate's `Display` implementation. -/
def sectionNumberToString (sn : List Nat) : String :=
  if sn = [] then "0"
  else sn.foldl (fun acc x => acc ++ Nat.repr x ++ ".") ""

/-- Initial chapter-number vector of `run`: `vec![1]` resized to
`prefix_depth` with zeros (resizing to 0 truncates). -/
def initCcn : Nat → List Nat
  | 0 => []
  | d + 1 => 1 :: List.replicate d 0

/-- The book-item tree of the host document model: a chapter (name,
content, optional section number, optional source path, nested
sub-items), a separator, or a part title.  A chapter is a draft iff its
path is `none`, exactly as `is_draft_chapter()`. -/
inductive BookItem where
  | chapter (name : String) (content : String) (number : Option (List Nat))
      (path : Option (List String)) (subItems : List BookItem)
  | separator
  | partTitle (title : String)
deriving Repr

mutual

/-- Model of `for_each_mut_ordered`: apply the visitor to an item, then,
if the (possibly rewritten) item is a chapter, recurse into its
sub-items before moving to the next sibling.  The visitor is modelled as
a state-passing function; `run`'s visitor only rewrites chapter content,
so recursing into the original sub-item list coincides with the
source. -/
def forEachItem {σ : Type} (f : σ → BookItem → σ × BookItem) (s : σ) :
    BookItem → σ × BookItem
  | BookItem.chapter nm c num p subs =>
    match f s (BookItem.chapter nm c num p subs) with
    | (s1, BookItem.chapter nm1 c1 num1 p1 _) =>
      let r := forEachList f s1 subs
      (r.1, BookItem.chapter nm1 c1 num1 p1 r.2)
    | (s1, other) => (s1, other)
  | other => f s other

/-- List part of `for_each_mut_ordered`: visit the items of a forest in
order, threading the state. -/
def forEachList {σ : Type} (f : σ → BookItem → σ × BookItem) (s : σ) :
    List BookItem → σ × List BookItem
  | [] => (s, [])
  | i :: is =>
    let r1 := forEachItem f s i
    let r2 := forEachList f r1.1 is
    (r2.1, r1.2 :: r2.2)

end

/-- The engine state threaded through pass 1: the label map, the running
counter and the current chapter-number vector. -/
structure RunState where
  refs : RefsMap
  ctr : Nat
  ccn : List Nat
deriving Repr

/-- The pass-1 visitor of `run`: skip drafts, compute the raw prefix from
the section number, apply the reset logic, rewrite the content.  A `none`
state records that a panic already happened. -/
def numberVisitor (cfg : Config) (st : Option RunState) (item : BookItem) :
    Option RunState × BookItem :=
  match st with
  | none => (none, item)
  | some s =>
    match item with
    | BookItem.chapter nm content num path subs =>
      match path with
      | none => (some s, item)
      | some p =>
        let pfx0 := if cfg.withPfx then
            (match num with
             | some sn => sectionNumberToString sn
             | none => "")
          else ""
        match resetCtrAndPfx cfg pfx0 s.ctr s.ccn with
        | none => (none, item)
        | some (pfx, ctr1, ccn1) =>
          let r := find_and_replace_eqs content pfx p s.refs ctr1
          (some ⟨r.2.1, r.2.2.1, ccn1⟩, BookItem.chapter nm r.1 num path subs)
    | other => (some s, other)

mutual

/-- Pass 2 applied to one item and its sub-items: rewrite the references
of every non-draft chapter against the final label map.  The pass is
stateless per chapter, so traversal order is irrelevant (the host's
`Book::for_each_mut` visits every item). -/
def refsPassItem (refs : RefsMap) : BookItem → Option BookItem
  | BookItem.chapter nm c num p subs =>
    match p with
    | some pth =>
      (find_and_replace_refs c pth refs).bind fun r =>
        (refsPassList refs subs).map fun subs2 =>
          BookItem.chapter nm r.1 num p subs2
    | none =>
      (refsPassList refs subs).map fun subs2 =>
        BookItem.chapter nm c num p subs2
  | other => some other

/-- Pass 2 applied to a forest of items. -/
def refsPassList (refs : RefsMap) : List BookItem → Option (List BookItem)
  | [] => some []
  | i :: is =>
    (refsPassItem refs i).bind fun i2 =>
      (refsPassList refs is).map fun is2 => i2 :: is2

end

/-- Model of `NumEqPreprocessor::run`: pass 1 numbers the equations in
pre-order while building the label map, pass 2 resolves the references;
`none` models a panic aborting the run. -/
def numEqRun (cfg : Config) (sections : List BookItem) : Option (List BookItem) :=
  let r := forEachList (numberVisitor cfg)
    (some ⟨[], 0, initCcn cfg.pfxDepth⟩) sections
  match r.1 with
  | none => none
  | some st => refsPassList st.refs r.2

/-- The `{{numeq}}` token as a string. -/
def numeqTok : String := String.mk numeqTokChars

/-- The `{{eqref:` token head as a string. -/
def eqrefTok : String := String.mk eqrefTokChars

/-- Decidable test for the presence of an equation placeholder match
anywhere in a character list. -/
def hasEqPlaceholder (cs : List Char) : Bool :=
  (List.range cs.length).any fun i => (matchNumeq (cs.drop i)).isSome

/-- Decidable test for the presence of a reference placeholder match
anywhere in a character list. -/
def hasRefPlaceholder (cs : List Char) : Bool :=
  (List.range cs.length).any fun i => (matchEqref (cs.drop i)).isSome

mutual

/-- The pre-order enumeration of the nodes of a book tree, written from
the walker contract of the specification: a node first, then its
sub-items, then its siblings. -/
def preorderItem : BookItem → List BookItem
  | BookItem.chapter nm c num p subs =>
    BookItem.chapter nm c num p subs :: preorderList subs
  | other => [other]

/-- Pre-order enumeration of a forest of book items. -/
def preorderList : List BookItem → List BookItem
  | [] => []
  | i :: is => preorderItem i ++ preorderList is

end

/-- Purely lexical resolution of a relative path against a base
directory, written from the specification: `..` pops the last component,
any other component is appended. -/
def resolveLex : List String → List String → List String
  | base, [] => base
  | base, c :: rest =>
    if c = ".." then resolveLex base.dropLast rest
    else resolveLex (base ++ [c]) rest

/-- Length of the longest common prefix of two component lists. -/
def commonStrip : List String → List String → Nat
  | a :: ra, b :: rb => if a = b then commonStrip ra rb + 1 else 0
  | _, _ => 0

/-- The expected components of the relative path from directory `ba` to
file `tgt`: one `..` per component of `ba` past the common prefix,
followed by the remainder of `tgt`. -/
def relComps (tgt ba : List String) : List String :=
  List.replicate (ba.length - commonStrip tgt ba) ".." ++ tgt.drop (commonStrip tgt ba)

/-- Drop the last `n` components of a list, one at a time. -/
def popN : List String → Nat → List String
  | l, 0 => l
  | l, n + 1 => popN l.dropLast n

/-! ### String helpers -/

/-- A string is its character list. -/
theorem mk_data (s : String) : String.mk s.data = s := by
  cases s; rfl

/-- Appending strings appends their character lists. -/
theorem append_mk (s t : String) : s ++ t = String.mk (s.data ++ t.data) := by
  cases s; cases t; rfl

/-! ### Matcher lemmas -/

theorem stripLit_append (p r : List Char) : stripLit p (p ++ r) = some r := by
  induction p with
  | nil => rfl
  | cons c p ih => simp [stripLit, ih]

theorem stripLit_length {p cs r : List Char} (h : stripLit p cs = some r) :
    cs.length = p.length + r.length := by
  induction p generalizing cs with
  | nil => simp [stripLit] at h; simp [h]
  | cons c p ih =>
    match cs with
    | [] => simp [stripLit] at h
    | c2 :: cs2 =>
      simp [stripLit] at h
      obtain ⟨h1, h2⟩ := h
      have := ih h2
      simp [this]; omega

theorem lazyToBrace_spec (l r : List Char) (hbr : '}' ∉ l) (hnl : '\n' ∉ l) :
    lazyToBrace (l ++ '}' :: r) = some (l, r) := by
  induction l with
  | nil => simp [lazyToBrace]
  | cons c l ih =>
    have hc : ¬c = '}' := fun h => hbr (h ▸ List.mem_cons_self c l)
    have hn : ¬c = '\n' := fun h => hnl (h ▸ List.mem_cons_self c l)
    have hbr2 : '}' ∉ l := fun h => hbr (List.mem_cons_of_mem c h)
    have hnl2 : '\n' ∉ l := fun h => hnl (List.mem_cons_of_mem c h)
    rw [List.cons_append, lazyToBrace, if_neg hc, if_neg hn, ih hbr2 hnl2]
    rfl

theorem lazyToBrace_length {cs l r : List Char}
    (h : lazyToBrace cs = some (l, r)) : cs.length = l.length + 1 + r.length := by
  induction cs generalizing l with
  | nil => simp [lazyToBrace] at h
  | cons c cs ih =>
    rw [lazyToBrace] at h
    by_cases hc : c = '}'
    · rw [if_pos hc] at h
      simp at h
      obtain ⟨h1, h2⟩ := h
      subst h1; subst h2; simp; omega
    · rw [if_neg hc] at h
      by_cases hn : c = '\n'
      · rw [if_pos hn] at h; simp at h
      · rw [if_neg hn] at h
        cases hrec : lazyToBrace cs with
        | none => rw [hrec] at h; simp at h
        | some p =>
          rw [hrec] at h
          simp at h
          obtain ⟨h1, h2⟩ := h
          have hlen := ih (l := p.1) (by rw [hrec, ← h2])
          subst h1
          simp at hlen ⊢
          omega

theorem lazyToBraces_spec (l r : List Char) (hbr : '}' ∉ l) (hnl : '\n' ∉ l) :
    lazyToBraces (l ++ '}' :: '}' :: r) = some (l, r) := by
  induction l with
  | nil => simp [lazyToBraces]
  | cons c l ih =>
    have hc : ¬(c = '}' ∧ (l ++ '}' :: '}' :: r).head? = some '}') :=
      fun h => hbr (h.1 ▸ List.mem_cons_self c l)
    have hn : ¬c = '\n' := fun h => hnl (h ▸ List.mem_cons_self c l)
    have hbr2 : '}' ∉ l := fun h => hbr (List.mem_cons_of_mem c h)
    have hnl2 : '\n' ∉ l := fun h => hnl (List.mem_cons_of_mem c h)
    rw [List.cons_append, lazyToBraces, if_neg hc, if_neg hn, ih hbr2 hnl2]
    rfl

theorem lazyToBraces_length {cs l r : List Char}
    (h : lazyToBraces cs = some (l, r)) : cs.length = l.length + 2 + r.length := by
  induction cs generalizing l with
  | nil => simp [lazyToBraces] at h
  | cons c cs ih =>
    rw [lazyToBraces] at h
    by_cases hc : c = '}' ∧ cs.head? = some '}'
    · rw [if_pos hc] at h
      simp at h
      obtain ⟨h1, h2⟩ := h
      subst h1; subst h2
      cases cs with
      | nil => simp at hc
      | cons d cs2 =>
        have hd : d = '}' := by simpa using hc.2
        simp; omega
    · rw [if_neg hc] at h
      by_cases hn : c = '\n'
      · rw [if_pos hn] at h; simp at h
      · rw [if_neg hn] at h
        cases hrec : lazyToBraces cs with
        | none => rw [hrec] at h; simp at h
        | some p =>
          rw [hrec] at h
          simp at h
          obtain ⟨h1, h2⟩ := h
          have hlen := ih (l := p.1) (by rw [hrec, ← h2])
          subst h1
          simp at hlen ⊢
          omega

theorem wsThenLabel_cons (c : Char) (rest : List Char) :
    wsThenLabel (c :: rest) =
      if isWs c then
        match wsThenLabel rest with
        | some r => some r
        | none => lazyToBraces (c :: rest)
      else lazyToBraces (c :: rest) := rfl

theorem wsThenLabel_spec (w l r : List Char) (hw : ∀ c ∈ w, isWs c = true)
    (hhead : ∀ c, l.head? = some c → isWs c = false)
    (hbr : '}' ∉ l) (hnl : '\n' ∉ l) :
    wsThenLabel (w ++ l ++ '}' :: '}' :: r) = some (l, r) := by
  induction w with
  | nil =>
    have hlazy := lazyToBraces_spec l r hbr hnl
    match l with
    | [] =>
      have hns : isWs '}' = false := by decide
      rw [List.nil_append, List.nil_append, wsThenLabel_cons, if_neg (by simp [hns])]
      simpa using hlazy
    | c :: l2 =>
      have hcw : isWs c = false := hhead c rfl
      rw [List.nil_append, List.cons_append, wsThenLabel_cons, if_neg (by simp [hcw])]
      simpa using hlazy
  | cons wc w ih =>
    have hwc : isWs wc = true := hw wc (List.mem_cons_self wc w)
    have hrest := ih (fun c hc => hw c (List.mem_cons_of_mem wc hc))
    rw [List.cons_append, List.cons_append, wsThenLabel_cons, if_pos hwc, hrest]

theorem wsThenLabel_length {cs l r : List Char}
    (h : wsThenLabel cs = some (l, r)) : r.length + 2 ≤ cs.length := by
  induction cs generalizing l with
  | nil => simp [wsThenLabel, lazyToBraces] at h
  | cons c cs ih =>
    rw [wsThenLabel_cons] at h
    by_cases hws : isWs c = true
    · rw [if_pos hws] at h
      cases hrec : wsThenLabel cs with
      | some p =>
        rw [hrec] at h
        have hp : p = (l, r) := by simpa using h
        subst hp
        have := ih hrec
        simp
        omega
      | none =>
        rw [hrec] at h
        have := lazyToBraces_length h
        omega
    · rw [if_neg hws] at h
      have := lazyToBraces_length h
      omega

theorem matchNumeq_nil : matchNumeq [] = none := by
  simp [matchNumeq, numeqTokChars, stripLit]

theorem matchNumeq_labeled (lbl rest : List Char) (hbr : '}' ∉ lbl) (hnl : '\n' ∉ lbl) :
    matchNumeq (numeqTokChars ++ '{' :: (lbl ++ '}' :: rest)) = some (some lbl, rest) := by
  rw [matchNumeq, stripLit_append]
  simp [lazyToBrace_spec lbl rest hbr hnl]

theorem matchNumeq_bare (rest : List Char) (h : rest.head? ≠ some '{') :
    matchNumeq (numeqTokChars ++ rest) = some (none, rest) := by
  rw [matchNumeq, stripLit_append]
  simp [h]

theorem matchNumeq_length {cs : List Char} {o : Option (List Char)} {rest : List Char}
    (h : matchNumeq cs = some (o, rest)) : rest.length < cs.length := by
  rw [matchNumeq] at h
  cases hs : stripLit numeqTokChars cs with
  | none => rw [hs] at h; simp at h
  | some r0 =>
    rw [hs] at h
    simp only [Option.map_some', Option.some.injEq] at h
    have hlen := stripLit_length hs
    have h9 : (numeqTokChars).length = 9 := by decide
    rw [h9] at hlen
    by_cases hh : r0.head? = some '{'
    · rw [if_pos hh] at h
      cases hl : lazyToBrace r0.tail with
      | some p =>
        rw [hl] at h
        have hlazy := lazyToBrace_length (l := p.1) (r := p.2) (by rw [hl])
        have htl : r0.tail.length + 1 = r0.length := by
          cases r0 with
          | nil => simp at hh
          | cons a r0t => simp
        have hpr : p.2 = rest := by simpa using congrArg Prod.snd h
        have : p.2.length = rest.length := by rw [hpr]
        omega
      | none =>
        rw [hl] at h
        have hpr : r0 = rest := by simpa using congrArg Prod.snd h
        have : r0.length = rest.length := by rw [hpr]
        omega
    · rw [if_neg hh] at h
      have hpr : r0 = rest := by simpa using congrArg Prod.snd h
      have : r0.length = rest.length := by rw [hpr]
      omega

theorem matchEqref_nil : matchEqref [] = none := by
  simp [matchEqref, eqrefTokChars, stripLit]

theorem matchEqref_spec (w lbl rest : List Char) (hw : ∀ c ∈ w, isWs c = true)
    (hhead : ∀ c, lbl.head? = some c → isWs c = false)
    (hbr : '}' ∉ lbl) (hnl : '\n' ∉ lbl) :
    matchEqref (eqrefTokChars ++ (w ++ lbl ++ '}' :: '}' :: rest)) = some (lbl, rest) := by
  rw [matchEqref, stripLit_append]
  simpa using wsThenLabel_spec w lbl rest hw hhead hbr hnl

theorem matchEqref_length {cs lbl rest : List Char}
    (h : matchEqref cs = some (lbl, rest)) : rest.length < cs.length := by
  rw [matchEqref] at h
  cases hs : stripLit eqrefTokChars cs with
  | none => rw [hs] at h; simp at h
  | some r0 =>
    rw [hs] at h
    simp only [Option.some_bind] at h
    have hlen := stripLit_length hs
    have h8 : (eqrefTokChars).length = 8 := by decide
    rw [h8] at hlen
    have := wsThenLabel_length h
    omega

/-! ### Fuel irrelevance: the scanners never exhaust fuel initialised with
the input length, because every regex match strictly shortens the input. -/

theorem data_mk (l : List Char) : (String.mk l).data = l := rfl

theorem eqsAux_norm (pfx : String) (path : List String) :
    ∀ fuel cs refs ctr, cs.length ≤ fuel →
      findAndReplaceEqsAux pfx path fuel cs refs ctr =
        findAndReplaceEqsAux pfx path cs.length cs refs ctr := by
  intro fuel
  induction fuel using Nat.strong_induction_on with
  | _ fuel ih =>
    intro cs refs ctr hle
    match fuel with
    | 0 =>
      have : cs = [] := List.eq_nil_of_length_eq_zero (Nat.le_zero.mp hle)
      subst this; rfl
    | fuel + 1 =>
      match cs with
      | [] => rw [findAndReplaceEqsAux, matchNumeq_nil]; rfl
      | c :: cs =>
        have hlen : (c :: cs).length = cs.length + 1 := List.length_cons c cs
        rw [hlen, findAndReplaceEqsAux, findAndReplaceEqsAux]
        cases hm : matchNumeq (c :: cs) with
        | none =>
          simp only []
          rw [ih fuel (Nat.lt_succ_self fuel) cs refs ctr (by simp at hle; omega)]
        | some p =>
          obtain ⟨o, rest⟩ := p
          have hrest : rest.length < cs.length + 1 := by
            have := matchNumeq_length hm
            simpa using this
          have h1 : findAndReplaceEqsAux pfx path fuel rest =
              findAndReplaceEqsAux pfx path rest.length rest := by
            funext a b
            exact ih fuel (Nat.lt_succ_self fuel) rest a b (by simp at hle; omega)
          have h2 : findAndReplaceEqsAux pfx path cs.length rest =
              findAndReplaceEqsAux pfx path rest.length rest := by
            funext a b
            exact ih cs.length (by omega) rest a b (by omega)
          cases o with
          | none => simp only [h1, h2]
          | some lbl => simp only [h1, h2]

theorem refsAux_norm (chapPath : List String) (refs : RefsMap) :
    ∀ fuel cs, cs.length ≤ fuel →
      findAndReplaceRefsAux chapPath refs fuel cs =
        findAndReplaceRefsAux chapPath refs cs.length cs := by
  intro fuel
  induction fuel using Nat.strong_induction_on with
  | _ fuel ih =>
    intro cs hle
    match fuel with
    | 0 =>
      have : cs = [] := List.eq_nil_of_length_eq_zero (Nat.le_zero.mp hle)
      subst this; rfl
    | fuel + 1 =>
      match cs with
      | [] => rw [findAndReplaceRefsAux, matchEqref_nil]; rfl
      | c :: cs =>
        have hlen : (c :: cs).length = cs.length + 1 := List.length_cons c cs
        rw [hlen, findAndReplaceRefsAux, findAndReplaceRefsAux]
        cases hm : matchEqref (c :: cs) with
        | none =>
          simp only []
          rw [ih fuel (Nat.lt_succ_self fuel) cs (by simp at hle; omega)]
        | some p =>
          obtain ⟨lbl, rest⟩ := p
          have hrest : rest.length < cs.length + 1 := by
            have := matchEqref_length hm
            simpa using this
          have h1 : findAndReplaceRefsAux chapPath refs fuel rest =
              findAndReplaceRefsAux chapPath refs rest.length rest :=
            ih fuel (Nat.lt_succ_self fuel) rest (by simp at hle; omega)
          have h2 : findAndReplaceRefsAux chapPath refs cs.length rest =
              findAndReplaceRefsAux chapPath refs rest.length rest :=
            ih cs.length (by omega) rest (by omega)
          simp only [h1, h2]

/-! ### Head-case characterisation of `find_and_replace_eqs` -/

theorem eqsAux_succ (pfx : String) (path : List String) (fuel : Nat) (cs : List Char)
    (refs : RefsMap) (ctr : Nat) :
    findAndReplaceEqsAux pfx path (fuel + 1) cs refs ctr =
      match matchNumeq cs with
      | some (some lbl, rest) =>
        let lblS := String.mk lbl
        if (List.lookup lblS refs).isSome then
          let r := findAndReplaceEqsAux pfx path fuel rest refs (ctr + 1)
          ((anchorFrag lblS).data ++ (tagFrag pfx (ctr + 1)).data ++ r.1,
            r.2.1, r.2.2.1, lblS :: r.2.2.2)
        else
          let refs2 := (lblS, ⟨pfx ++ Nat.repr (ctr + 1), path⟩) :: refs
          let r := findAndReplaceEqsAux pfx path fuel rest refs2 (ctr + 1)
          ((anchorFrag lblS).data ++ (tagFrag pfx (ctr + 1)).data ++ r.1,
            r.2.1, r.2.2.1, r.2.2.2)
      | some (none, rest) =>
        let r := findAndReplaceEqsAux pfx path fuel rest refs (ctr + 1)
        ((tagFrag pfx (ctr + 1)).data ++ r.1, r.2.1, r.2.2.1, r.2.2.2)
      | none =>
        match cs with
        | [] => ([], refs, ctr, [])
        | c :: cs2 =>
          let r := findAndReplaceEqsAux pfx path fuel cs2 refs ctr
          (c :: r.1, r.2.1, r.2.2.1, r.2.2.2) := rfl

theorem refsAux_succ (chapPath : List String) (refs : RefsMap) (fuel : Nat) (cs : List Char) :
    findAndReplaceRefsAux chapPath refs (fuel + 1) cs =
      match matchEqref cs with
      | some (lbl, rest) =>
        let lblS := String.mk lbl
        match List.lookup lblS refs with
        | some info =>
          match compute_rel_path chapPath info.path with
          | none => none
          | some relPath =>
            (findAndReplaceRefsAux chapPath refs fuel rest).map
              (fun r => (("[(" ++ info.num ++ ")](" ++ relPath ++ "#" ++ lblS ++ ")").data ++ r.1, r.2))
        | none =>
          (findAndReplaceRefsAux chapPath refs fuel rest).map
            (fun r => ("**[??]**".data ++ r.1, lblS :: r.2))
      | none =>
        match cs with
        | [] => some ([], [])
        | c :: cs2 =>
          (findAndReplaceRefsAux chapPath refs fuel cs2).map
            (fun r => (c :: r.1, r.2)) := rfl

theorem eqs_head_labeled (pfx : String) (path : List String) (refs : RefsMap) (ctr : Nat)
    (lbl rest : String) (hbr : '}' ∉ lbl.data) (hnl : '\n' ∉ lbl.data) :
    find_and_replace_eqs (numeqTok ++ "\x7b" ++ lbl ++ "\x7d" ++ rest) pfx path refs ctr =
      if (List.lookup lbl refs).isSome then
        let r := find_and_replace_eqs rest pfx path refs (ctr + 1)
        (anchorFrag lbl ++ tagFrag pfx (ctr + 1) ++ r.1, r.2.1, r.2.2.1, lbl :: r.2.2.2)
      else
        let r := find_and_replace_eqs rest pfx path
          ((lbl, ⟨pfx ++ Nat.repr (ctr + 1), path⟩) :: refs) (ctr + 1)
        (anchorFrag lbl ++ tagFrag pfx (ctr + 1) ++ r.1, r.2) := by
  have hdata : (numeqTok ++ "\x7b" ++ lbl ++ "\x7d" ++ rest).data =
      numeqTokChars ++ '{' :: (lbl.data ++ '}' :: rest.data) := by
    simp [append_mk, data_mk, numeqTok]
  have hlen : (numeqTok ++ "\x7b" ++ lbl ++ "\x7d" ++ rest).data.length =
      (lbl.data.length + 10 + rest.data.length) + 1 := by
    rw [hdata]; simp [numeqTokChars]
    try omega
  rw [find_and_replace_eqs, hlen, hdata, eqsAux_succ,
    matchNumeq_labeled lbl.data rest.data hbr hnl]
  simp only [mk_data]
  by_cases hlk : (List.lookup lbl refs).isSome
  · rw [if_pos hlk, if_pos hlk]
    rw [eqsAux_norm pfx path _ rest.data refs (ctr + 1) (by omega)]
    rw [find_and_replace_eqs]
    simp [append_mk, data_mk]
  · rw [if_neg hlk, if_neg hlk]
    rw [eqsAux_norm pfx path _ rest.data _ (ctr + 1) (by omega)]
    rw [find_and_replace_eqs]
    simp [append_mk, data_mk]

theorem eqs_head_bare (pfx : String) (path : List String) (refs : RefsMap) (ctr : Nat)
    (rest : String) (h : rest.data.head? ≠ some '{') :
    find_and_replace_eqs (numeqTok ++ rest) pfx path refs ctr =
      (tagFrag pfx (ctr + 1) ++ (find_and_replace_eqs rest pfx path refs (ctr + 1)).1,
        (find_and_replace_eqs rest pfx path refs (ctr + 1)).2) := by
  have hdata : (numeqTok ++ rest).data = numeqTokChars ++ rest.data := by
    simp [append_mk, data_mk, numeqTok]
  have hlen : (numeqTok ++ rest).data.length = (rest.data.length + 8) + 1 := by
    rw [hdata]; simp [numeqTokChars]
    try omega
  rw [find_and_replace_eqs, hlen, hdata, eqsAux_succ, matchNumeq_bare rest.data h]
  simp only []
  rw [eqsAux_norm pfx path _ rest.data refs (ctr + 1) (by omega)]
  rw [find_and_replace_eqs]
  simp [append_mk, data_mk]

theorem eqs_head_skip (pfx : String) (path : List String) (refs : RefsMap) (ctr : Nat)
    (c : Char) (rest : String) (h : matchNumeq (c :: rest.data) = none) :
    find_and_replace_eqs (String.mk (c :: rest.data)) pfx path refs ctr =
      (String.mk (c :: (find_and_replace_eqs rest pfx path refs ctr).1.data),
        (find_and_replace_eqs rest pfx path refs ctr).2) := by
  rw [find_and_replace_eqs, find_and_replace_eqs]
  simp only [data_mk, List.length_cons]
  rw [eqsAux_succ, h]

theorem eqs_lookup_mono (pfx : String) (path : List String) (l : String) (info : LabelInfo) :
    ∀ fuel cs refs ctr, List.lookup l refs = some info →
      List.lookup l (findAndReplaceEqsAux pfx path fuel cs refs ctr).2.1 = some info := by
  intro fuel
  induction fuel with
  | zero => intro cs refs ctr h; exact h
  | succ fuel ih =>
    intro cs refs ctr h
    rw [eqsAux_succ]
    cases hm : matchNumeq cs with
    | none =>
      cases cs with
      | nil => exact h
      | cons c cs2 => exact ih cs2 refs ctr h
    | some p =>
      obtain ⟨o, rest⟩ := p
      cases o with
      | none => exact ih rest refs (ctr + 1) h
      | some lbl =>
        by_cases hlk : (List.lookup (String.mk lbl) refs).isSome
        · simp only [hlk, if_true]
          exact ih rest refs (ctr + 1) h
        · simp only [hlk, if_false]
          have hne : l ≠ String.mk lbl := by
            intro he
            rw [← he, h] at hlk
            simp at hlk
          refine ih rest _ (ctr + 1) ?_
          rw [List.lookup_cons]
          have : (l == String.mk lbl) = false := beq_false_of_ne hne
          simp [this, h]

theorem eqsAux_frame (pfx : String) (path : List String) :
    ∀ fuel cs refs ctr, cs.length ≤ fuel → hasEqPlaceholder cs = false →
      findAndReplaceEqsAux pfx path fuel cs refs ctr = (cs, refs, ctr, []) := by
  intro fuel
  induction fuel with
  | zero =>
    intro cs refs ctr hle _
    have : cs = [] := List.eq_nil_of_length_eq_zero (Nat.le_zero.mp hle)
    subst this; rfl
  | succ fuel ih =>
    intro cs refs ctr hle hno
    rw [eqsAux_succ]
    cases cs with
    | nil => rw [matchNumeq_nil]
    | cons c cs2 =>
      have h0 : matchNumeq (c :: cs2) = none := by
        rw [hasEqPlaceholder] at hno
        simp only [List.any_eq_false, List.mem_range] at hno
        have := hno 0 (by simp)
        simpa using this
      rw [h0]
      simp only []
      have htail : hasEqPlaceholder cs2 = false := by
        rw [hasEqPlaceholder] at hno ⊢
        simp only [List.any_eq_false, List.mem_range] at hno ⊢
        intro i hi
        have := hno (i + 1) (by simp; omega)
        simpa using this
      rw [ih cs2 refs ctr (by simp at hle; omega) htail]

/-! ### Head-case characterisation of `find_and_replace_refs` -/

theorem refs_head (chapPath : List String) (refs : RefsMap)
    (w lbl rest : String) (hw : ∀ c ∈ w.data, isWs c = true)
    (hhead : ∀ c, lbl.data.head? = some c → isWs c = false)
    (hbr : '}' ∉ lbl.data) (hnl : '\n' ∉ lbl.data) :
    find_and_replace_refs (eqrefTok ++ w ++ lbl ++ "\x7d\x7d" ++ rest) chapPath refs =
      match List.lookup lbl refs with
      | some info =>
        match compute_rel_path chapPath info.path with
        | none => none
        | some relPath =>
          (find_and_replace_refs rest chapPath refs).map
            (fun r => ("[(" ++ info.num ++ ")](" ++ relPath ++ "#" ++ lbl ++ ")" ++ r.1, r.2))
      | none =>
        (find_and_replace_refs rest chapPath refs).map
          (fun r => ("**[??]**" ++ r.1, lbl :: r.2)) := by
  have hdata : (eqrefTok ++ w ++ lbl ++ "\x7d\x7d" ++ rest).data =
      eqrefTokChars ++ (w.data ++ lbl.data ++ '}' :: '}' :: rest.data) := by
    simp [append_mk, data_mk, eqrefTok]
  have hlen : (eqrefTok ++ w ++ lbl ++ "\x7d\x7d" ++ rest).data.length =
      (w.data.length + lbl.data.length + 9 + rest.data.length) + 1 := by
    rw [hdata]; simp [eqrefTokChars]
    try omega
  rw [find_and_replace_refs, hlen, hdata, refsAux_succ,
    matchEqref_spec w.data lbl.data rest.data hw hhead hbr hnl]
  simp only [mk_data]
  cases hlk : List.lookup lbl refs with
  | none =>
    simp only []
    rw [refsAux_norm chapPath refs _ rest.data (by omega)]
    rw [find_and_replace_refs]
    simp only [append_mk, data_mk, Option.map_map]
    exact Option.map_congr fun a _ => rfl
  | some info =>
    simp only []
    cases hrp : compute_rel_path chapPath info.path with
    | none => rfl
    | some relPath =>
      simp only []
      rw [refsAux_norm chapPath refs _ rest.data (by omega)]
      rw [find_and_replace_refs]
      simp only [append_mk, data_mk, Option.map_map]
      exact Option.map_congr fun a _ => rfl

theorem refsAux_frame (chapPath : List String) (refs : RefsMap) :
    ∀ fuel cs, cs.length ≤ fuel → hasRefPlaceholder cs = false →
      findAndReplaceRefsAux chapPath refs fuel cs = some (cs, []) := by
  intro fuel
  induction fuel with
  | zero =>
    intro cs hle _
    have : cs = [] := List.eq_nil_of_length_eq_zero (Nat.le_zero.mp hle)
    subst this; rfl
  | succ fuel ih =>
    intro cs hle hno
    rw [refsAux_succ]
    cases cs with
    | nil => rw [matchEqref_nil]
    | cons c cs2 =>
      have h0 : matchEqref (c :: cs2) = none := by
        rw [hasRefPlaceholder] at hno
        simp only [List.any_eq_false, List.mem_range] at hno
        have := hno 0 (by simp)
        simpa using this
      rw [h0]
      simp only []
      have htail : hasRefPlaceholder cs2 = false := by
        rw [hasRefPlaceholder] at hno ⊢
        simp only [List.any_eq_false, List.mem_range] at hno ⊢
        intro i hi
        have := hno (i + 1) (by simp; omega)
        simpa using this
      rw [ih cs2 (by simp at hle; omega) htail]
      rfl

/-! ### Relative-path lemmas -/

theorem diffLoop_nil_left (rb : List String) :
    ∀ e, diffLoop [] rb e = some (List.replicate rb.length "..") := by
  induction rb with
  | nil => intro e; rfl
  | cons b rb ih =>
    intro e
    simp [diffLoop, ih false, List.replicate_succ]

theorem diffLoop_eq (tgt : List String) :
    ∀ ba : List String, (∀ c ∈ ba, c ≠ "." ∧ c ≠ "..") →
      diffLoop tgt ba true = some (relComps tgt ba) := by
  induction tgt with
  | nil =>
    intro ba _
    rw [diffLoop_nil_left ba true]
    cases ba with
    | nil => simp [relComps, commonStrip]
    | cons b rb => simp [relComps, commonStrip]
  | cons a ra ih =>
    intro ba hba
    cases ba with
    | nil => simp [diffLoop, relComps, commonStrip]
    | cons b rb =>
      by_cases hab : a = b
      · subst hab
        have := ih rb (fun c hc => hba c (List.mem_cons_of_mem a hc))
        simp [diffLoop, relComps, commonStrip, this]
      · have hb := hba b (List.mem_cons_self b rb)
        have hcs : commonStrip (a :: ra) (b :: rb) = 0 := by
          simp [commonStrip, hab]
        simp [diffLoop, hab, hb.1, hb.2, relComps, hcs, List.replicate_succ,
          List.map_const']

theorem popN_eq_take (n : Nat) : ∀ l : List String, popN l n = l.take (l.length - n) := by
  induction n with
  | zero => intro l; simp [popN]
  | succ n ih =>
    intro l
    rw [popN, ih l.dropLast, List.dropLast_eq_take, List.take_take,
      List.length_take]
    congr 1
    omega

theorem resolveLex_no_up (s : List String) (hs : ∀ c ∈ s, c ≠ "..") :
    ∀ base, resolveLex base s = base ++ s := by
  induction s with
  | nil => intro base; simp [resolveLex]
  | cons c s ih =>
    intro base
    have hc : c ≠ ".." := hs c (List.mem_cons_self c s)
    rw [resolveLex, if_neg hc, ih (fun d hd => hs d (List.mem_cons_of_mem c hd))]
    simp

theorem resolveLex_ups (s : List String) (hs : ∀ c ∈ s, c ≠ "..") :
    ∀ (m : Nat) (base : List String),
      resolveLex base (List.replicate m ".." ++ s) = popN base m ++ s := by
  intro m
  induction m with
  | zero => intro base; simpa [popN] using resolveLex_no_up s hs base
  | succ m ih =>
    intro base
    rw [List.replicate_succ, List.cons_append, resolveLex, if_pos rfl, ih base.dropLast]
    rfl

theorem commonStrip_le_right (a : List String) :
    ∀ b : List String, commonStrip a b ≤ b.length := by
  induction a with
  | nil => intro b; cases b <;> simp [commonStrip]
  | cons x ra ih =>
    intro b
    cases b with
    | nil => simp [commonStrip]
    | cons y rb =>
      by_cases hxy : x = y
      · simp [commonStrip, hxy]
        have := ih rb
        omega
      · simp [commonStrip, hxy]

theorem commonStrip_take (a : List String) :
    ∀ b : List String, b.take (commonStrip a b) = a.take (commonStrip a b) := by
  induction a with
  | nil => intro b; cases b <;> simp [commonStrip]
  | cons x ra ih =>
    intro b
    cases b with
    | nil => simp [commonStrip]
    | cons y rb =>
      by_cases hxy : x = y
      · subst hxy
        simp [commonStrip, ih rb]
      · simp [commonStrip, hxy]

theorem resolve_relComps (tgt ba : List String) (ht : ∀ c ∈ tgt, c ≠ "..") :
    resolveLex ba (relComps tgt ba) = tgt := by
  have hdrop : ∀ c ∈ tgt.drop (commonStrip tgt ba), c ≠ ".." :=
    fun c hc => ht c (List.drop_subset _ tgt hc)
  rw [relComps, resolveLex_ups _ hdrop _ ba, popN_eq_take]
  have hk : commonStrip tgt ba ≤ ba.length := commonStrip_le_right tgt ba
  have harith : ba.length - (ba.length - commonStrip tgt ba) = commonStrip tgt ba := by
    omega
  rw [harith, commonStrip_take tgt ba]
  exact List.take_append_drop _ tgt

/-! ### Walker lemmas -/

theorem walker_collect (n : Nat) :
    (∀ i : BookItem, sizeOf i ≤ n → ∀ acc : List BookItem,
        forEachItem (fun log it => (log ++ [it], it)) acc i = (acc ++ preorderItem i, i)) ∧
      (∀ is : List BookItem, sizeOf is ≤ n → ∀ acc : List BookItem,
        forEachList (fun log it => (log ++ [it], it)) acc is = (acc ++ preorderList is, is)) := by
  induction n with
  | zero =>
    constructor
    · intro i hi
      exfalso
      cases i <;> simp at hi
    · intro is his
      exfalso
      cases is <;> simp at his
  | succ n ihn =>
    constructor
    · intro i hi acc
      cases i with
      | chapter nm c num p subs =>
        have hsub : sizeOf subs ≤ n := by
          simp at hi
          omega
        rw [forEachItem]
        simp [ihn.2 subs hsub, preorderItem]
      | separator =>
        simp [forEachItem, preorderItem]
      | partTitle t =>
        simp [forEachItem, preorderItem]
    · intro is his acc
      cases is with
      | nil =>
        rw [forEachList, preorderList]
        simp
      | cons i is2 =>
        have h1 : sizeOf i ≤ n := by simp at his; omega
        have h2 : sizeOf is2 ≤ n := by simp at his; omega
        rw [forEachList]
        simp [ihn.1 i h1, ihn.2 is2 h2, preorderList]

/-! ### Small string bridges used by the claim proofs -/

theorem str_ext {s t : String} (h : s.data = t.data) : s = t := by
  cases s; cases t; exact congrArg String.mk h

theorem append_empty_str (s : String) : s ++ "" = s := by
  rw [append_mk]
  exact str_ext (by simp [data_mk])

/-! ### Claims -/

/-- C1: at the start of each visited non-draft chapter the counter and the
chapter-number vector are updated as configured: with `global` off and
`depth` 0 the counter resets to 0 at every chapter; with `depth` > 0 and an
empty section-number string the counter resets and the printed prefix is
empty; with `depth` > 0 and a non-empty section-number string, the string is
parsed into dot-separated numeric components, padded with trailing zeros to
at least `depth` components, and its first `depth` components are compared
with the remembered chapter-number vector: on a difference the new vector is
adopted and the counter resets to 0, and the printed prefix is always the
`depth`-component vector rendered as dot-separated integers with a trailing
dot. -/
theorem claim1_counter_reset (cfg : Config) (pfx0 : String) (ctr : Nat) (ccn : List Nat) :
    (cfg.global = false → cfg.pfxDepth = 0 →
      resetCtrAndPfx cfg pfx0 ctr ccn = some (pfx0, 0, ccn))
  ∧ (0 < cfg.pfxDepth → pfx0 = "" →
      resetCtrAndPfx cfg pfx0 ctr ccn = some ("", 0, ccn))
  ∧ (∀ pv : List Nat, 0 < cfg.pfxDepth → pfx0 ≠ "" → parseSecVec pfx0 = some pv →
      resetCtrAndPfx cfg pfx0 ctr ccn =
        (let pvPad := pv ++ List.replicate (cfg.pfxDepth - pv.length) 0
         let newCcn := pvPad.take cfg.pfxDepth
         if newCcn = ccn then some (renderCcn ccn, ctr, ccn)
         else some (renderCcn newCcn, 0, newCcn))) := by
  refine ⟨?_, ?_, ?_⟩
  · intro hg hd
    rw [resetCtrAndPfx]
    simp [hg, hd]
  · intro hd hp
    rw [resetCtrAndPfx]
    simp [hp, hd]
  · intro pv hd hp hparse
    have hbeq : (cfg.pfxDepth == 0) = false := by
      simp
      omega
    rw [resetCtrAndPfx]
    simp only [hbeq, Bool.and_false, if_neg, Bool.false_eq_true, ite_false]
    rw [if_pos hd, if_neg hp, hparse]
    simp only []
    have hpad : (if pv.length < cfg.pfxDepth
        then pv ++ List.replicate (cfg.pfxDepth - pv.length) 0 else pv) =
        pv ++ List.replicate (cfg.pfxDepth - pv.length) 0 := by
      split
      · rfl
      · have : cfg.pfxDepth - pv.length = 0 := by omega
        simp [this]
    rw [hpad]
    by_cases heq : (pv ++ List.replicate (cfg.pfxDepth - pv.length) 0).take cfg.pfxDepth = ccn
    · rw [if_pos heq]
      have : ¬ccn ≠ (pv ++ List.replicate (cfg.pfxDepth - pv.length) 0).take cfg.pfxDepth := by
        simp [heq]
      rw [if_neg this]
    · rw [if_neg heq]
      have : ccn ≠ (pv ++ List.replicate (cfg.pfxDepth - pv.length) 0).take cfg.pfxDepth := by
        exact fun hx => heq hx.symm
      rw [if_pos this]

/-- Witness for C1, scenario C: configuration depth 1 with prefix, previous
vector `[1]`, chapter section string `2.1.`: the counter resets to 0, the
vector becomes `[2]`, the printed prefix is `2.`. -/
theorem claim1_witness :
    resetCtrAndPfx ⟨true, 1, false⟩ "2.1." 5 [1] = some ("2.", 0, [2]) := by
  have h := (claim1_counter_reset ⟨true, 1, false⟩ "2.1." 5 [1]).2.2 [2, 1]
    (by decide) (by decide) (by decide)
  rw [h]
  decide

/-- C2: each equation placeholder, processed left to right, increments the
counter by one; an unlabeled placeholder is replaced by the tag fragment
carrying `prefix` and the incremented counter; a labeled placeholder whose
label is not yet in the table is replaced by the anchor fragment for the
label immediately followed by the tag fragment, and binds the label to the
record with number `prefix + n` and this chapter's path; a position with no
match is copied unchanged and scanning continues to the right. -/
theorem claim2_eq_rewrite (pfx : String) (path : List String) (refs : RefsMap) (ctr : Nat) :
    (∀ rest : String, rest.data.head? ≠ some '{' →
      find_and_replace_eqs (numeqTok ++ rest) pfx path refs ctr =
        (tagFrag pfx (ctr + 1) ++ (find_and_replace_eqs rest pfx path refs (ctr + 1)).1,
          (find_and_replace_eqs rest pfx path refs (ctr + 1)).2))
  ∧ (∀ lbl rest : String, '}' ∉ lbl.data → '\n' ∉ lbl.data →
      List.lookup lbl refs = none →
      find_and_replace_eqs (numeqTok ++ "\x7b" ++ lbl ++ "\x7d" ++ rest) pfx path refs ctr =
        (let r := find_and_replace_eqs rest pfx path
          ((lbl, ⟨pfx ++ Nat.repr (ctr + 1), path⟩) :: refs) (ctr + 1)
         (anchorFrag lbl ++ tagFrag pfx (ctr + 1) ++ r.1, r.2)))
  ∧ (∀ (c : Char) (rest : String), matchNumeq (c :: rest.data) = none →
      find_and_replace_eqs (String.mk (c :: rest.data)) pfx path refs ctr =
        (String.mk (c :: (find_and_replace_eqs rest pfx path refs ctr).1.data),
          (find_and_replace_eqs rest pfx path refs ctr).2)) := by
  refine ⟨fun rest h => eqs_head_bare pfx path refs ctr rest h, ?_, ?_⟩
  · intro lbl rest hbr hnl hfresh
    have h := eqs_head_labeled pfx path refs ctr lbl rest hbr hnl
    rw [h, if_neg (by simp [hfresh])]
  · intro c rest h
    exact eqs_head_skip pfx path refs ctr c rest h

/-- Witness for C2, scenario B: `TOKEN{eq:test}` in an empty table renders
the anchor plus tag `1` and binds `eq:test` to number `1` and the chapter
path. -/
theorem claim2_witness :
    find_and_replace_eqs (numeqTok ++ "\x7b" ++ "eq:test" ++ "\x7d" ++ "") "" ["chapter.md"] [] 0 =
      ("\\htmlId\x7beq:test\x7d\x7b\x7d \\tag\x7b1\x7d",
        [("eq:test", ⟨"1", ["chapter.md"]⟩)], 1, []) := by
  have h := (claim2_eq_rewrite "" ["chapter.md"] [] 0).2.1 "eq:test" ""
    (by decide) (by decide) (by decide)
  rw [h]
  decide

/-- C3: a binding, once in the label table, survives the whole rewriting of
any later content unchanged; a placeholder reusing a bound label records a
duplicate warning, leaves the table untouched, still increments the counter
and still renders its own number into the content. -/
theorem claim3_label_first_writer_wins (s : String) (pfx : String) (path : List String)
    (refs : RefsMap) (ctr : Nat) (l : String) (info : LabelInfo)
    (h : List.lookup l refs = some info) :
    List.lookup l (find_and_replace_eqs s pfx path refs ctr).2.1 = some info
  ∧ (∀ rest : String, '}' ∉ l.data → '\n' ∉ l.data →
      find_and_replace_eqs (numeqTok ++ "\x7b" ++ l ++ "\x7d" ++ rest) pfx path refs ctr =
        (let r := find_and_replace_eqs rest pfx path refs (ctr + 1)
         (anchorFrag l ++ tagFrag pfx (ctr + 1) ++ r.1, r.2.1, r.2.2.1, l :: r.2.2.2))) := by
  constructor
  · rw [find_and_replace_eqs]
    exact eqs_lookup_mono pfx path l info s.data.length s.data refs ctr h
  · intro rest hbr hnl
    have hh := eqs_head_labeled pfx path refs ctr l rest hbr hnl
    rw [hh, if_pos (by simp [h])]

/-- Witness for C3, scenario D: with `eq:dup` already bound to number `1`,
a second `TOKEN{eq:dup}` leaves the binding at `1`, increments the counter
to 2, renders its own tag `2`, and records a duplicate warning. -/
theorem claim3_witness :
    List.lookup "eq:dup"
      (find_and_replace_eqs "x" "" ["a.md"] [("eq:dup", ⟨"1", ["a.md"]⟩)] 1).2.1 =
        some ⟨"1", ["a.md"]⟩
  ∧ find_and_replace_eqs (numeqTok ++ "\x7b" ++ "eq:dup" ++ "\x7d" ++ "") ""
      ["a.md"] [("eq:dup", ⟨"1", ["a.md"]⟩)] 1 =
        ("\\htmlId\x7beq:dup\x7d\x7b\x7d \\tag\x7b2\x7d",
          [("eq:dup", ⟨"1", ["a.md"]⟩)], 2, ["eq:dup"]) := by
  have h := claim3_label_first_writer_wins "x" "" ["a.md"]
    [("eq:dup", ⟨"1", ["a.md"]⟩)] 1 "eq:dup" ⟨"1", ["a.md"]⟩ (by decide)
  refine ⟨h.1, ?_⟩
  rw [h.2 "" (by decide) (by decide)]
  decide

/-- C4: `compute_rel_path` returns the empty string for identical paths and
otherwise a purely lexical relative path from the directory of the
referencing chapter to the target file, whose resolution from that
directory yields the target path again, for sibling, ancestor and
descendant layouts alike. -/
theorem claim4_rel_path (chap tgt : List String)
    (hc : ∀ c ∈ chap, c ≠ "." ∧ c ≠ "..") (ht : ∀ c ∈ tgt, c ≠ "." ∧ c ≠ "..") :
    (chap = tgt → compute_rel_path chap tgt = some "")
  ∧ (chap ≠ tgt →
      compute_rel_path chap tgt =
        some (String.intercalate "/" (relComps tgt chap.dropLast))
      ∧ resolveLex chap.dropLast (relComps tgt chap.dropLast) = tgt) := by
  constructor
  · intro he
    simp [compute_rel_path, he]
  · intro hne
    have hsub : ∀ c ∈ chap.dropLast, c ≠ "." ∧ c ≠ ".." :=
      fun c hcm => hc c ((List.dropLast_sublist chap).subset hcm)
    refine ⟨?_, resolve_relComps tgt chap.dropLast (fun c hcm => (ht c hcm).2)⟩
    rw [compute_rel_path, if_neg hne, diffLoop_eq tgt chap.dropLast hsub]
    rfl

/-- Witness for C4, scenario F layout: from `b/detail.md` to `a/intro.md`
the relative path is `../a/intro.md` and resolving it from `b` gives back
`a/intro.md`; a path against itself gives the empty string. -/
theorem claim4_witness :
    compute_rel_path ["b", "detail.md"] ["a", "intro.md"] =
      some (String.intercalate "/" (relComps ["a", "intro.md"] ["b"]))
  ∧ resolveLex ["b"] (relComps ["a", "intro.md"] ["b"]) = ["a", "intro.md"]
  ∧ compute_rel_path ["b", "detail.md"] ["a", "intro.md"] = some "../a/intro.md"
  ∧ compute_rel_path ["a", "intro.md"] ["a", "intro.md"] = some "" := by
  have h := claim4_rel_path ["b", "detail.md"] ["a", "intro.md"]
    (by decide) (by decide)
  have h2 := h.2 (by decide)
  exact ⟨h2.1, h2.2, by decide, by decide⟩

/-- C5: a reference placeholder whose label is in the table becomes a link
with the bracketed, parenthesised equation number as visible text and the
computed relative path followed by `#` and the label as target; scanning
continues on the rest of the content. -/
theorem claim5_ref_link (lbl rest : String) (chap : List String) (refs : RefsMap)
    (info : LabelInfo) (rp : String)
    (hhead : ∀ c, lbl.data.head? = some c → isWs c = false)
    (hbr : '}' ∉ lbl.data) (hnl : '\n' ∉ lbl.data)
    (hfound : List.lookup lbl refs = some info)
    (hrp : compute_rel_path chap info.path = some rp) :
    find_and_replace_refs (eqrefTok ++ lbl ++ "\x7d\x7d" ++ rest) chap refs =
      (find_and_replace_refs rest chap refs).map
        (fun r => ("[(" ++ info.num ++ ")](" ++ rp ++ "#" ++ lbl ++ ")" ++ r.1, r.2)) := by
  have h := refs_head chap refs "" lbl rest (by simp) hhead hbr hnl
  rw [show eqrefTok ++ "" ++ lbl ++ "\x7d\x7d" ++ rest =
    eqrefTok ++ lbl ++ "\x7d\x7d" ++ rest from by rw [append_empty_str]] at h
  rw [h, hfound]
  simp only [hrp]

/-- Witness for C5, scenario F: chapter `b/detail.md` references `eq:main`
bound in `a/intro.md` with number `3`: the output is the link
`[(3)](../a/intro.md#eq:main)`. -/
theorem claim5_witness :
    find_and_replace_refs (eqrefTok ++ "eq:main" ++ "\x7d\x7d" ++ "")
      ["b", "detail.md"] [("eq:main", ⟨"3", ["a", "intro.md"]⟩)] =
      some ("[(3)](../a/intro.md#eq:main)", []) := by
  have h := claim5_ref_link "eq:main" "" ["b", "detail.md"]
    [("eq:main", ⟨"3", ["a", "intro.md"]⟩)] ⟨"3", ["a", "intro.md"]⟩ "../a/intro.md"
    (by decide) (by decide) (by decide) (by decide) (by decide)
  rw [h]
  decide

/-- C6: a reference placeholder whose label is absent from the table is
replaced by the fixed bold broken-link marker, the unresolved label is
recorded as a warning, and rewriting continues over the rest of the
content without aborting. -/
theorem claim6_unresolved_marker (lbl rest : String) (chap : List String) (refs : RefsMap)
    (hhead : ∀ c, lbl.data.head? = some c → isWs c = false)
    (hbr : '}' ∉ lbl.data) (hnl : '\n' ∉ lbl.data)
    (hmiss : List.lookup lbl refs = none) :
    find_and_replace_refs (eqrefTok ++ lbl ++ "\x7d\x7d" ++ rest) chap refs =
      (find_and_replace_refs rest chap refs).map
        (fun r => ("**[??]**" ++ r.1, lbl :: r.2)) := by
  have h := refs_head chap refs "" lbl rest (by simp) hhead hbr hnl
  rw [show eqrefTok ++ "" ++ lbl ++ "\x7d\x7d" ++ rest =
    eqrefTok ++ lbl ++ "\x7d\x7d" ++ rest from by rw [append_empty_str]] at h
  rw [h, hmiss]

/-- Witness for C6, scenario E: a reference to the unbound `eq:missing`
renders the marker, records the warning, and the run continues (the result
is still `some`). -/
theorem claim6_witness :
    find_and_replace_refs (eqrefTok ++ "eq:missing" ++ "\x7d\x7d" ++ " tail")
      ["b", "detail.md"] [] = some ("**[??]** tail", ["eq:missing"]) := by
  have h := claim6_unresolved_marker "eq:missing" " tail" ["b", "detail.md"] []
    (by decide) (by decide) (by decide) (by decide)
  rw [h]
  decide

/-- C7 counterexample: with `a` bound in the table, writing the reference
with trailing white space inside the braces fails to resolve (the marker is
produced and the looked-up key is `a` followed by a space), while the
reference with leading white space or no white space resolves: surrounding
white space is not symmetrically trimmed. -/
theorem claim7_cex :
    (¬ (find_and_replace_refs "\x7b\x7beqref:a \x7d\x7d" ["x.md"] [("a", ⟨"1", ["x.md"]⟩)] =
        find_and_replace_refs "\x7b\x7beqref:a\x7d\x7d" ["x.md"] [("a", ⟨"1", ["x.md"]⟩)]))
  ∧ find_and_replace_refs "\x7b\x7beqref:a \x7d\x7d" ["x.md"] [("a", ⟨"1", ["x.md"]⟩)] =
      some ("**[??]**", ["a "])
  ∧ find_and_replace_refs "\x7b\x7beqref: a\x7d\x7d" ["x.md"] [("a", ⟨"1", ["x.md"]⟩)] =
      some ("[(1)](#a)", [])
  ∧ find_and_replace_refs "\x7b\x7beqref:a\x7d\x7d" ["x.md"] [("a", ⟨"1", ["x.md"]⟩)] =
      some ("[(1)](#a)", []) := by
  refine ⟨by decide, by decide, by decide, by decide⟩

/-- C7 as amended: the white space immediately following the colon is
consumed greedily by the placeholder pattern, and the captured label —
including any trailing white space before the closing braces — is used
verbatim for the table lookup and embedded in the link target; leading
white space therefore never affects resolution, trailing white space is
part of the label. -/
theorem claim7_amended_capture (w lbl rest : String) (chap : List String) (refs : RefsMap)
    (hw : ∀ c ∈ w.data, isWs c = true)
    (hhead : ∀ c, lbl.data.head? = some c → isWs c = false)
    (hbr : '}' ∉ lbl.data) (hnl : '\n' ∉ lbl.data) :
    find_and_replace_refs (eqrefTok ++ w ++ lbl ++ "\x7d\x7d" ++ rest) chap refs =
      match List.lookup lbl refs with
      | some info =>
        match compute_rel_path chap info.path with
        | none => none
        | some relPath =>
          (find_and_replace_refs rest chap refs).map
            (fun r => ("[(" ++ info.num ++ ")](" ++ relPath ++ "#" ++ lbl ++ ")" ++ r.1, r.2))
      | none =>
        (find_and_replace_refs rest chap refs).map
          (fun r => ("**[??]**" ++ r.1, lbl :: r.2)) :=
  refs_head chap refs w lbl rest hw hhead hbr hnl

/-- Witness for the amended C7: a label that itself ends in a space,
`b` followed by a space, bound in the table, is found by a reference whose
braces contain leading white space and that trailing space. -/
theorem claim7_witness :
    find_and_replace_refs (eqrefTok ++ " " ++ "b " ++ "\x7d\x7d" ++ "")
      ["x.md"] [("b ", ⟨"2", ["x.md"]⟩)] = some ("[(2)](#b )", []) := by
  have h := claim7_amended_capture " " "b " "" ["x.md"] [("b ", ⟨"2", ["x.md"]⟩)]
    (by decide) (by decide) (by decide) (by decide)
  rw [h]
  decide

/-- C8: the ordered walker visits every node reachable from the root
exactly once in pre-order — a chapter before its sub-chapters, the
sub-chapters before the next sibling — and draft chapters are visited like
any other node, the visitor log being exactly the pre-order enumeration of
the forest; the items themselves are returned unchanged by a purely
collecting visitor. -/
theorem claim8_walker_preorder (acc : List BookItem) (items : List BookItem) :
    forEachList (fun log it => (log ++ [it], it)) acc items =
      (acc ++ preorderList items, items) :=
  (walker_collect (sizeOf items)).2 items le_rfl acc

/-- C9: a chapter whose content contains no equation placeholder and no
reference placeholder is returned byte for byte unchanged by both passes,
with the counter, the label table and the warning lists unchanged. -/
theorem claim9_no_placeholder_frame (s : String) (pfx : String) (path : List String)
    (refs : RefsMap) (ctr : Nat) (chap : List String)
    (h1 : hasEqPlaceholder s.data = false) (h2 : hasRefPlaceholder s.data = false) :
    find_and_replace_eqs s pfx path refs ctr = (s, refs, ctr, [])
  ∧ find_and_replace_refs s chap refs = some (s, []) := by
  constructor
  · rw [find_and_replace_eqs,
      eqsAux_frame pfx path s.data.length s.data refs ctr le_rfl h1]
  · rw [find_and_replace_refs,
      refsAux_frame chap refs s.data.length s.data le_rfl h2]
    simp [mk_data]

/-- Witness for C9: an ordinary sentence without placeholders passes both
rewriting passes unchanged, with untouched counter and table. -/
theorem claim9_witness :
    find_and_replace_eqs "no placeholders here" "1." ["a.md"]
      [("x", ⟨"1", ["a.md"]⟩)] 7 =
        ("no placeholders here", [("x", ⟨"1", ["a.md"]⟩)], 7, [])
  ∧ find_and_replace_refs "no placeholders here" ["a.md"]
      [("x", ⟨"1", ["a.md"]⟩)] = some ("no placeholders here", []) :=
  claim9_no_placeholder_frame "no placeholders here" "1." ["a.md"]
    [("x", ⟨"1", ["a.md"]⟩)] 7 ["a.md"] (by decide) (by decide)

/-- C10: an equation placeholder with empty braces is a labeled equation
with the empty-string label: the counter increments, the key `""` is bound
(first writer wins applying to a later empty label, which only records a
warning), and the anchor fragment has an empty id; a reference placeholder
with no label text looks up the empty key and resolves to its binding. -/
theorem claim10_empty_label (rest rest2 : String) (pfx : String)
    (path chap : List String) (refs refs2 : RefsMap) (ctr : Nat)
    (info : LabelInfo) (rp : String)
    (hfresh : List.lookup "" refs = none)
    (hdup : List.lookup "" refs2 = some info)
    (hrp : compute_rel_path chap info.path = some rp) :
    (find_and_replace_eqs (numeqTok ++ "\x7b\x7d" ++ rest) pfx path refs ctr =
      (let r := find_and_replace_eqs rest pfx path
        (("", ⟨pfx ++ Nat.repr (ctr + 1), path⟩) :: refs) (ctr + 1)
       (anchorFrag "" ++ tagFrag pfx (ctr + 1) ++ r.1, r.2)))
  ∧ (find_and_replace_eqs (numeqTok ++ "\x7b\x7d" ++ rest) pfx path refs2 ctr =
      (let r := find_and_replace_eqs rest pfx path refs2 (ctr + 1)
       (anchorFrag "" ++ tagFrag pfx (ctr + 1) ++ r.1, r.2.1, r.2.2.1, "" :: r.2.2.2)))
  ∧ (find_and_replace_refs (eqrefTok ++ "\x7d\x7d" ++ rest2) chap refs2 =
      (find_and_replace_refs rest2 chap refs2).map
        (fun r => ("[(" ++ info.num ++ ")](" ++ rp ++ "#" ++ "" ++ ")" ++ r.1, r.2))) := by
  have hinp : numeqTok ++ "\x7b" ++ "" ++ "\x7d" ++ rest = numeqTok ++ "\x7b\x7d" ++ rest := by
    apply str_ext
    simp [append_mk, data_mk]
  refine ⟨?_, ?_, ?_⟩
  · have h := eqs_head_labeled pfx path refs ctr "" rest (by simp) (by simp)
    rw [hinp] at h
    rw [h, if_neg (by simp [hfresh])]
  · have h := eqs_head_labeled pfx path refs2 ctr "" rest (by simp) (by simp)
    rw [hinp] at h
    rw [h, if_pos (by simp [hdup])]
  · have hinp2 : eqrefTok ++ "" ++ "" ++ "\x7d\x7d" ++ rest2 =
        eqrefTok ++ "\x7d\x7d" ++ rest2 := by
      apply str_ext
      simp [append_mk, data_mk]
    have h := refs_head chap refs2 "" "" rest2 (by simp) (by simp) (by simp) (by simp)
    rw [hinp2] at h
    rw [h, hdup]
    simp only [hrp]

/-- Witness for C10: `TOKEN{}` on an empty table binds the empty label to
number 1 and renders an anchor with empty id; `REFTOKEN` with no label then
resolves against that binding. -/
theorem claim10_witness :
    find_and_replace_eqs (numeqTok ++ "\x7b\x7d" ++ "") "" ["a.md"] [] 0 =
      ("\\htmlId\x7b\x7d\x7b\x7d \\tag\x7b1\x7d", [("", ⟨"1", ["a.md"]⟩)], 1, [])
  ∧ find_and_replace_refs (eqrefTok ++ "\x7d\x7d" ++ "") ["a.md"]
      [("", ⟨"1", ["a.md"]⟩)] = some ("[(1)](#)", []) := by
  have h := claim10_empty_label "" "" "" ["a.md"] ["a.md"] []
    [("", ⟨"1", ["a.md"]⟩)] 0 ⟨"1", ["a.md"]⟩ "" (by decide) (by decide) (by decide)
  exact ⟨by rw [h.1]; decide, by rw [h.2.2]; decide⟩

end NumEq
